import Mathlib

/-!
Verification of the `modular-bitfield` macro implementation
(`src/impl/src/bitfield.rs`).  The macro expands a `#[bitfield]` struct into
a byte-array-backed struct with per-field accessors.  We embed the layout
arithmetic, the generated accessor bodies, the byte conversions and the
configuration handling as executable Lean definitions and prove the spec
claims about them.

The bit I/O primitives `read_specifier` / `write_specifier` live in the
runtime support crate (`modular_bitfield::private`), which is not part of
`src/`; they are modelled from the spec (section 4.2).
-/

namespace ModularBitfield

/-- The `width`-bit unsigned value stored at bit positions
`[offset, offset + width)` of the little-endian value `n` of a byte buffer.
Bit 0 is the least significant bit of byte 0. -/
def readBits (n offset width : Nat) : Nat :=
  n / 2 ^ offset % 2 ^ width

/-- Replace bit positions `[offset, offset + width)` of the little-endian
value `n` with the low `width` bits of `v`, leaving all other bits
unchanged. -/
def writeBits (n offset width v : Nat) : Nat :=
  n % 2 ^ offset + v % 2 ^ width * 2 ^ offset
    + n / 2 ^ (offset + width) * 2 ^ (offset + width)

theorem two_pow_pos (k : Nat) : 0 < 2 ^ k :=
  Nat.pos_pow_of_pos k (by norm_num)

theorem writeBits_eq_add (n o w v : Nat) :
    writeBits n o w v =
      n % 2 ^ o + 2 ^ o * (v % 2 ^ w + 2 ^ w * (n / (2 ^ o * 2 ^ w))) := by
  unfold writeBits
  rw [← pow_add]
  ring

theorem readBits_writeBits_same (n o w v : Nat) :
    readBits (writeBits n o w v) o w = v % 2 ^ w := by
  unfold readBits
  rw [writeBits_eq_add]
  rw [Nat.add_mul_div_left _ _ (two_pow_pos o)]
  rw [Nat.div_eq_of_lt (Nat.mod_lt n (two_pow_pos o))]
  rw [Nat.zero_add]
  rw [Nat.add_mul_mod_self_left]
  exact Nat.mod_mod_of_dvd v dvd_rfl

theorem writeBits_mod (n o w v : Nat) :
    writeBits n o w v % 2 ^ o = n % 2 ^ o := by
  rw [writeBits_eq_add, Nat.add_mul_mod_self_left]
  exact Nat.mod_mod_of_dvd n dvd_rfl

/-- The two low summands of `writeBits` fit below `2 ^ (o + w)`. -/
theorem writeBits_low_part_lt (n o w v : Nat) :
    n % 2 ^ o + v % 2 ^ w * 2 ^ o < 2 ^ (o + w) := by
  have h1 : n % 2 ^ o < 2 ^ o := Nat.mod_lt n (two_pow_pos o)
  have h2 : v % 2 ^ w < 2 ^ w := Nat.mod_lt v (two_pow_pos w)
  calc n % 2 ^ o + v % 2 ^ w * 2 ^ o
      < (v % 2 ^ w + 1) * 2 ^ o := by nlinarith
    _ ≤ 2 ^ w * 2 ^ o := Nat.mul_le_mul_right _ (by omega)
    _ = 2 ^ (o + w) := by rw [← pow_add]; ring_nf

theorem writeBits_div_high (n o w v : Nat) :
    writeBits n o w v / 2 ^ (o + w) = n / 2 ^ (o + w) := by
  unfold writeBits
  rw [Nat.add_mul_div_right _ _ (two_pow_pos (o + w))]
  rw [Nat.div_eq_of_lt (writeBits_low_part_lt n o w v), Nat.zero_add]

theorem readBits_eq_mod_div (n o w : Nat) :
    readBits n o w = n % 2 ^ (o + w) / 2 ^ o := by
  unfold readBits
  rw [pow_add, Nat.mod_mul_right_div_self]

theorem readBits_writeBits_low (n o w v o' w' : Nat) (h : o' + w' ≤ o) :
    readBits (writeBits n o w v) o' w' = readBits n o' w' := by
  rw [readBits_eq_mod_div, readBits_eq_mod_div]
  have hdvd : 2 ^ (o' + w') ∣ 2 ^ o := pow_dvd_pow 2 h
  have h1 : writeBits n o w v % 2 ^ (o' + w') = n % 2 ^ (o' + w') := by
    rw [← Nat.mod_mod_of_dvd _ hdvd, writeBits_mod, Nat.mod_mod_of_dvd _ hdvd]
  rw [h1]

theorem readBits_writeBits_high (n o w v o' w' : Nat) (h : o + w ≤ o') :
    readBits (writeBits n o w v) o' w' = readBits n o' w' := by
  unfold readBits
  have hsplit : 2 ^ o' = 2 ^ (o + w) * 2 ^ (o' - (o + w)) := by
    rw [← pow_add]
    congr 1
    omega
  rw [hsplit, ← Nat.div_div_eq_div_mul, ← Nat.div_div_eq_div_mul, writeBits_div_high]

theorem writeBits_lt {n L : Nat} (o w v : Nat) (hn : n < 2 ^ L) (hw : o + w ≤ L) :
    writeBits n o w v < 2 ^ L := by
  have hsplit : 2 ^ L = 2 ^ (o + w) * 2 ^ (L - (o + w)) := by
    rw [← pow_add]
    congr 1
    omega
  have hq : n / 2 ^ (o + w) < 2 ^ (L - (o + w)) := by
    apply Nat.div_lt_of_lt_mul
    rw [← hsplit]
    exact hn
  have hs := writeBits_low_part_lt n o w v
  unfold writeBits
  calc n % 2 ^ o + v % 2 ^ w * 2 ^ o + n / 2 ^ (o + w) * 2 ^ (o + w)
      < (n / 2 ^ (o + w) + 1) * 2 ^ (o + w) := by nlinarith
    _ ≤ 2 ^ (L - (o + w)) * 2 ^ (o + w) := Nat.mul_le_mul_right _ (by omega)
    _ = 2 ^ L := by rw [← pow_add]; congr 1; omega

/-- The little-endian value of a byte list (byte 0 is least significant). -/
def bytesToNat : List Nat → Nat
  | [] => 0
  | b :: bs => b + 256 * bytesToNat bs

/-- The `len`-byte little-endian representation of `n`. -/
def natToBytes : Nat → Nat → List Nat
  | 0, _ => []
  | len + 1, n => n % 256 :: natToBytes len (n / 256)

theorem natToBytes_length (len n : Nat) : (natToBytes len n).length = len := by
  induction len generalizing n with
  | zero => rfl
  | succ k ih => simp [natToBytes, ih]

theorem bytesToNat_natToBytes (len n : Nat) (h : n < 256 ^ len) :
    bytesToNat (natToBytes len n) = n := by
  induction len generalizing n with
  | zero =>
    simp only [pow_zero] at h
    simp only [natToBytes, bytesToNat]
    omega
  | succ k ih =>
    have hp : 256 ^ (k + 1) = 256 * 256 ^ k := by rw [pow_succ, Nat.mul_comm]
    have hdiv : n / 256 < 256 ^ k := by
      apply Nat.div_lt_of_lt_mul
      omega
    simp only [natToBytes, bytesToNat]
    rw [ih (n / 256) hdiv]
    omega

theorem natToBytes_bytes_lt (len n : Nat) : ∀ b ∈ natToBytes len n, b < 256 := by
  induction len generalizing n with
  | zero =>
    intro b hb
    simp [natToBytes] at hb
  | succ k ih =>
    intro b hb
    simp only [natToBytes, List.mem_cons] at hb
    rcases hb with h | h
    · subst h; omega
    · exact ih (n / 256) b h

theorem bytesToNat_lt (bs : List Nat) (h : ∀ b ∈ bs, b < 256) :
    bytesToNat bs < 256 ^ bs.length := by
  induction bs with
  | nil => simp [bytesToNat]
  | cons b bs ih =>
    have hb : b < 256 := h b (by simp)
    have ht : bytesToNat bs < 256 ^ bs.length := ih (fun x hx => h x (by simp [hx]))
    simp only [bytesToNat, List.length_cons]
    have hp : 256 ^ (bs.length + 1) = 256 * 256 ^ bs.length := by
      rw [pow_succ, Nat.mul_comm]
    omega

theorem pow_256_eq_two_pow (k : Nat) : 256 ^ k = 2 ^ (8 * k) := by
  induction k with
  | zero => rfl
  | succ m ih =>
    rw [pow_succ, ih]
    have h256 : (256 : Nat) = 2 ^ 8 := by norm_num
    rw [h256, ← pow_add]
    congr 1

/-- Modelled from the spec: `modular_bitfield::private::read_specifier`
(runtime support crate, not in `src/`) reads the unsigned value of the given
bit width at the given bit offset from a byte buffer; bit 0 is the least
significant bit of byte 0 (spec section 4.2). -/
def read_specifier (buf : List Nat) (offset width : Nat) : Nat :=
  readBits (bytesToNat buf) offset width

/-- Modelled from the spec: `modular_bitfield::private::write_specifier`
(runtime support crate, not in `src/`) writes the low `width` bits of `v`
at bit offset `offset` of a byte buffer, preserving all bits outside
`[offset, offset + width)` (spec section 4.2, read-modify-write). -/
def write_specifier (buf : List Nat) (offset width : Nat) (v : Nat) : List Nat :=
  natToBytes buf.length (writeBits (bytesToNat buf) offset width v)

theorem write_specifier_length (buf : List Nat) (o w v : Nat) :
    (write_specifier buf o w v).length = buf.length :=
  natToBytes_length _ _

theorem bytesToNat_write_specifier (buf : List Nat) (o w v : Nat)
    (hb : ∀ b ∈ buf, b < 256) (hfit : o + w ≤ 8 * buf.length) :
    bytesToNat (write_specifier buf o w v) = writeBits (bytesToNat buf) o w v := by
  apply bytesToNat_natToBytes
  rw [pow_256_eq_two_pow]
  have hn : bytesToNat buf < 2 ^ (8 * buf.length) := by
    rw [← pow_256_eq_two_pow]
    exact bytesToNat_lt buf hb
  exact writeBits_lt o w v hn hfit

theorem read_write_specifier_same (buf : List Nat) (o w v : Nat)
    (hb : ∀ b ∈ buf, b < 256) (hfit : o + w ≤ 8 * buf.length) :
    read_specifier (write_specifier buf o w v) o w = v % 2 ^ w := by
  unfold read_specifier
  rw [bytesToNat_write_specifier buf o w v hb hfit, readBits_writeBits_same]

theorem read_write_specifier_frame (buf : List Nat) (o w v o' w' : Nat)
    (hb : ∀ b ∈ buf, b < 256) (hfit : o + w ≤ 8 * buf.length)
    (hdisj : o' + w' ≤ o ∨ o + w ≤ o') :
    read_specifier (write_specifier buf o w v) o' w' = read_specifier buf o' w' := by
  unfold read_specifier
  rw [bytesToNat_write_specifier buf o w v hb hfit]
  rcases hdisj with h | h
  · exact readBits_writeBits_low _ _ _ _ _ _ h
  · exact readBits_writeBits_high _ _ _ _ _ _ h

/-- Result of the generated checked getter and of `Specifier::from_bytes`:
the error case `InvalidBitPattern` carries the raw bits read. -/
inductive FromBytesResult where
  | ok (value : Nat)
  | invalidBitPattern (bytes : Nat)
deriving DecidableEq

/-- Result of the generated checked setter: the error case is `OutOfBounds`
(which carries no payload). -/
inductive SetResult where
  | ok
  | outOfBounds
deriving DecidableEq

/-- The `Specifier` capability of a field type `#ty` as used by the generated
accessors: `bits` is `<#ty as Specifier>::BITS`, `baseBits` is
`8 * size_of::<<#ty as Specifier>::Bytes>()`, and `intoBytes` / `fromBytes`
are the codec conversions between typed values (here coded as `Nat`) and raw
bit patterns; `intoBytes` returns `none` on `OutOfBounds`. -/
structure Specifier where
  bits : Nat
  baseBits : Nat
  intoBytes : Nat → Option Nat
  fromBytes : Nat → FromBytesResult

/-- Body of the generated `<name>_or_err` checked getter
(`expand_getters_for_field`, bitfield.rs 838-852): read `BITS` bits at the
field offset, then decode via the codec `from_bytes`. -/
def get_checked (sp : Specifier) (offset : Nat) (buf : List Nat) : FromBytesResult :=
  sp.fromBytes (read_specifier buf offset sp.bits)

/-- Body of the generated `set_<name>_checked` checked setter
(`expand_setters_for_field`, bitfield.rs 945-967).  `__bf_max_value` is
`!0 >> (base_bits - BITS)` over the `baseBits`-bit raw type; the error
returns happen before the `write_specifier` call, so they leave the byte
buffer unchanged.  Returns the result together with the resulting buffer. -/
def set_checked (sp : Specifier) (offset : Nat) (buf : List Nat) (newVal : Nat) :
    SetResult × List Nat :=
  let maxValue : Nat := (2 ^ sp.baseBits - 1) >>> (sp.baseBits - sp.bits)
  match sp.intoBytes newVal with
  | none => (SetResult.outOfBounds, buf)
  | some rawVal =>
    if ¬(sp.baseBits = sp.bits ∨ rawVal ≤ maxValue) then
      (SetResult.outOfBounds, buf)
    else
      (SetResult.ok, write_specifier buf offset sp.bits rawVal)

/-- Body of the generated `with_<name>_checked` (bitfield.rs 925-935): copy
the bitfield, run the checked setter on the copy, propagate its error. -/
def with_checked (sp : Specifier) (offset : Nat) (buf : List Nat) (newVal : Nat) :
    Option (List Nat) :=
  match set_checked sp offset buf newVal with
  | (SetResult.ok, buf2) => some buf2
  | (SetResult.outOfBounds, _) => none

/-- The `!0 >> (base - bits)` mask used by the generated setter equals
`2 ^ bits - 1` whenever `bits ≤ base`. -/
theorem setter_max_value_eq (base bits : Nat) (h : bits ≤ base) :
    (2 ^ base - 1) >>> (base - bits) = 2 ^ bits - 1 := by
  rw [Nat.shiftRight_eq_div_pow]
  have hsplit : 2 ^ base = 2 ^ (base - bits) * 2 ^ bits := by
    rw [← pow_add]
    congr 1
    omega
  have hApos : 0 < 2 ^ (base - bits) := two_pow_pos _
  have hBpos : 0 < 2 ^ bits := two_pow_pos _
  have h1 : 2 ^ (base - bits) * (2 ^ bits - 1) + 2 ^ (base - bits)
      = 2 ^ (base - bits) * 2 ^ bits := by
    rw [← Nat.mul_succ]
    congr 1
    omega
  have key : 2 ^ base - 1
      = (2 ^ (base - bits) - 1) + 2 ^ (base - bits) * (2 ^ bits - 1) := by
    omega
  rw [key, Nat.add_mul_div_left _ _ hApos, Nat.div_eq_of_lt (by omega), Nat.zero_add]

/-- The generated checked setter succeeds and performs the bit write whenever
the encoded raw value fits in the field width. -/
theorem set_checked_of_le (sp : Specifier) (offset : Nat) (buf : List Nat)
    (v raw : Nat) (hbase : sp.bits ≤ sp.baseBits) (henc : sp.intoBytes v = some raw)
    (hraw : raw ≤ 2 ^ sp.bits - 1) :
    set_checked sp offset buf v = (SetResult.ok, write_specifier buf offset sp.bits raw) := by
  unfold set_checked
  rw [henc, setter_max_value_eq sp.baseBits sp.bits hbase]
  simp only [henc]
  rw [if_neg]
  intro hcon
  exact hcon (Or.inr hraw)

/-- The generated checked setter reports `OutOfBounds` exactly when the field
is strictly narrower than its raw type and the encoded value exceeds the
field-width maximum. -/
theorem set_checked_err_iff (sp : Specifier) (offset : Nat) (buf : List Nat)
    (v raw : Nat) (hbase : sp.bits ≤ sp.baseBits) (henc : sp.intoBytes v = some raw) :
    (set_checked sp offset buf v).1 = SetResult.outOfBounds ↔
      sp.bits < sp.baseBits ∧ 2 ^ sp.bits - 1 < raw := by
  unfold set_checked
  rw [henc, setter_max_value_eq sp.baseBits sp.bits hbase]
  dsimp only
  rcases Decidable.em (sp.baseBits = sp.bits ∨ raw ≤ 2 ^ sp.bits - 1) with hc | hc
  · rw [if_neg (not_not_intro hc)]
    constructor
    · intro hcontra
      simp at hcontra
    · intro hx
      exfalso
      rcases hc with he | hle
      · omega
      · omega
  · rw [if_pos hc]
    push_neg at hc
    constructor
    · intro _
      exact ⟨by omega, hc.2⟩
    · intro _
      rfl

/-- One `#[bitfield]` field: its `Specifier` capability and its skip flags.
The flags correspond to `FieldConfig::skip_getters()` /
`FieldConfig::skip_setters()` (declared in `field_config.rs`, which is not
under `src/`); per the spec they suppress the corresponding accessor pair. -/
structure Field where
  spec : Specifier
  skipGetters : Bool
  skipSetters : Bool

/-- Modelled from the spec: `config.skip_getters_and_setters()` (a
`FieldConfig` method declared in `field_config.rs`, not under `src/`):
both accessor pairs suppressed. -/
def skipBoth (f : Field) : Bool :=
  f.skipGetters && f.skipSetters

/-- Total bit size per `generate_bitfield_size` (bitfield.rs 545-566):
`0usize + BITS + ... + BITS` over all fields, skipped or not. -/
def totalBits (fs : List Field) : Nat :=
  (fs.map (fun f => f.spec.bits)).sum

/-- The helper `next_divisible_by_8` (bitfield.rs 591-596). -/
def nextDivisibleBy8 (value : Nat) : Nat :=
  (((value - 1) / 8) + 1) * 8

/-- The length of the generated byte array
(`generate_struct`, bitfield.rs 602-617): `next_divisible_by_8(size) / 8`. -/
def byteLength (total : Nat) : Nat :=
  nextDivisibleBy8 total / 8

/-- Per `generate_constructor` (bitfield.rs 620-637): `new()` zero-initializes
the byte array. -/
def newBitfield (total : Nat) : List Nat :=
  List.replicate (byteLength total) 0

/-- The conversion `into_bytes` (bitfield.rs 740-754): returns the
underlying bytes. -/
def into_bytes (buf : List Nat) : List Nat :=
  buf

/-- A placeholder field used to totalize list indexing. -/
def defaultField : Field :=
  ⟨⟨0, 0, fun _ => none, fun b => FromBytesResult.invalidBitPattern b⟩, true, true⟩

/-- The field at index `i` of a schema. -/
def fieldAt (fs : List Field) (i : Nat) : Field :=
  fs.getD i defaultField

/-- The bit offset at which `expand_getters_and_setters` (bitfield.rs
997-1020) generates the accessors of field `i`: the running offset starts at
`0usize` and `expand_getters_and_setters_for_field` (bitfield.rs 972-995)
pushes a field width onto it only after the skip check — it returns `None`
BEFORE `offset.push(..)` when both accessor pairs are skipped, so a fully
skipped field does not advance the running offset. -/
def codeOffset : List Field → Nat → Nat
  | _, 0 => 0
  | [], _ + 1 => 0
  | f :: fs, i + 1 => (if skipBoth f then 0 else f.spec.bits) + codeOffset fs i

/-- The offset the spec claims for field `i`: the sum of the declared widths
of ALL fields with smaller index, skipped or not (spec section 3, Offset
table).  This definition follows the words of the spec and exists to be
compared against `codeOffset`, which is translated from the source. -/
def specClaimedOffset (fs : List Field) (i : Nat) : Nat :=
  ((fs.take i).map (fun f => f.spec.bits)).sum

theorem codeOffset_nil (i : Nat) : codeOffset [] i = 0 := by
  cases i <;> rfl

theorem codeOffset_zero (fs : List Field) : codeOffset fs 0 = 0 := by
  cases fs <;> rfl

theorem codeOffset_mono (fs : List Field) :
    ∀ a b : Nat, a ≤ b → codeOffset fs a ≤ codeOffset fs b := by
  induction fs with
  | nil =>
    intro a b _
    rw [codeOffset_nil, codeOffset_nil]
  | cons f fs ih =>
    intro a b hab
    cases a with
    | zero =>
      rw [codeOffset_zero]
      exact Nat.zero_le _
    | succ a1 =>
      cases b with
      | zero => omega
      | succ b1 =>
        simp only [codeOffset]
        exact Nat.add_le_add_left (ih a1 b1 (by omega)) _

theorem codeOffset_succ (fs : List Field) (i : Nat) (hi : i < fs.length) :
    codeOffset fs (i + 1) =
      codeOffset fs i +
        (if skipBoth (fieldAt fs i) then 0 else (fieldAt fs i).spec.bits) := by
  induction fs generalizing i with
  | nil => simp at hi
  | cons f fs ih =>
    cases i with
    | zero =>
      simp only [codeOffset, codeOffset_zero, codeOffset_nil, fieldAt, List.getD_cons_zero]
      omega
    | succ i1 =>
      have hi1 : i1 < fs.length := by
        simp only [List.length_cons] at hi
        omega
      simp only [codeOffset, fieldAt, List.getD_cons_succ]
      rw [ih i1 hi1]
      simp only [fieldAt]
      omega

theorem codeOffset_add_bits_le (fs : List Field) (a b : Nat) (hab : a < b)
    (ha : a < fs.length) (hskip : skipBoth (fieldAt fs a) = false) :
    codeOffset fs a + (fieldAt fs a).spec.bits ≤ codeOffset fs b := by
  have h1 := codeOffset_succ fs a ha
  rw [hskip] at h1
  simp only [Bool.false_eq_true, if_false] at h1
  have h2 := codeOffset_mono fs (a + 1) b (by omega)
  omega

theorem codeOffset_add_bits_le_total (fs : List Field) (a : Nat)
    (ha : a < fs.length) :
    codeOffset fs a + (fieldAt fs a).spec.bits ≤ totalBits fs := by
  induction fs generalizing a with
  | nil => simp at ha
  | cons f fs ih =>
    cases a with
    | zero =>
      simp only [codeOffset_zero, fieldAt, List.getD_cons_zero, totalBits, List.map_cons,
        List.sum_cons, Nat.zero_add]
      have : 0 ≤ (fs.map (fun f => f.spec.bits)).sum := Nat.zero_le _
      omega
    | succ a1 =>
      have ha1 : a1 < fs.length := by
        simp only [List.length_cons] at ha
        omega
      have hrec := ih a1 ha1
      simp only [codeOffset, fieldAt, List.getD_cons_succ, totalBits, List.map_cons,
        List.sum_cons]
      simp only [fieldAt, totalBits] at hrec
      by_cases hs : skipBoth f
      · simp only [hs, if_true]
        omega
      · simp only [hs, Bool.false_eq_true, if_false]
        omega

theorem byteLength_eq (n : Nat) (h : 1 ≤ n) : byteLength n = (n + 7) / 8 := by
  unfold byteLength nextDivisibleBy8
  omega

theorem total_le_8_byteLength (n : Nat) (h : 1 ≤ n) : n ≤ 8 * byteLength n := by
  unfold byteLength nextDivisibleBy8
  omega

theorem nextDivisibleBy8_eq (n : Nat) : nextDivisibleBy8 n = 8 * byteLength n := by
  unfold byteLength nextDivisibleBy8
  omega

/-- Generated `Specifier::from_bytes`, per `generate_specifier_impl`
(bitfield.rs 450-463) for a specifier-enabled `#[bitfield]` struct.
`baseBits` is the bit width of `Self::Bytes`; the code computes
`__bf_max_value = (0x01 as Bytes).checked_shl(BITS).unwrap_or(Bytes::MAX)`
(`checked_shl` yields `Some (2 ^ BITS)` exactly when `BITS` is below the bit
width of `Bytes`, else `None`), then rejects inputs with
`bytes > __bf_max_value`, carrying the raw input in `InvalidBitPattern`. -/
def specifier_from_bytes (baseBits bits bytes : Nat) : FromBytesResult :=
  let maxValue : Nat := if bits < baseBits then 2 ^ bits else 2 ^ baseBits - 1
  if maxValue < bytes then FromBytesResult.invalidBitPattern bytes
  else FromBytesResult.ok bytes

/-- Generated `from_bytes` for a NON-filled layout
(`expand_byte_conversion_impls`, bitfield.rs 719-737): reject when
`bytes[byte_length - 1] >= 0x01 << (8 - (next_divisible_by_8 - size))`,
otherwise store the input bytes unchanged.  `none` models
`Err(OutOfBounds)`. -/
def from_bytes_non_filled (total : Nat) (bytes : List Nat) : Option (List Nat) :=
  if 2 ^ (8 - (nextDivisibleBy8 total - total)) ≤ bytes.getD (byteLength total - 1) 0 then
    none
  else some bytes

/-- The structural check emitted by `generate_check_for_filled`
(bitfield.rs 572-588): the macro instantiates
`CheckTotalSizeMultipleOf8` (for `filled = true`) or
`CheckTotalSizeIsNotMultipleOf8` (for `filled = false`) at
`TotalSize<[(); size % 8]>`.  Modelled from the spec: the check trait impls
live in the runtime crate (not in `src/`) and accept exactly residue 0,
resp. exactly a nonzero residue (spec section 4.3, checks 2 and 3). -/
def filled_check_passes (filledEnabled : Bool) (total : Nat) : Bool :=
  if filledEnabled then total % 8 == 0 else !(total % 8 == 0)

/-- Conversion `From<prim> for #ident` (bitfield.rs 679-687): stores
`prim::to_le_bytes(x)`, the little-endian byte expansion of `x`
(`to_le_bytes` is core Rust, embedded as `natToBytes`). -/
def repr_from_primitive (reprBits x : Nat) : List Nat :=
  natToBytes (reprBits / 8) x

/-- Conversion `From<#ident> for prim` (bitfield.rs 689-696): reads
`prim::from_le_bytes(bytes)` (`from_le_bytes` is core Rust, embedded as
`bytesToNat`). -/
def repr_into_primitive (bytes : List Nat) : Nat :=
  bytesToNat bytes

/-- Which accessor pairs a skip attribute suppresses (`SkipWhich`,
declared in `field_config.rs`); originally it qualifies a
`#[skip(..)]` attribute suppresses. -/
inductive SkipWhich where
  | all
  | getters
  | setters
deriving DecidableEq

/-- The surface form of a `#[skip]` field attribute as parsed by
`extract_field_config` (bitfield.rs 312-380): either the bare path
`#[skip]`, or a list `#[skip(...)]` recorded by whether `getters` and
`setters` appear in it. -/
inductive SkipAttr where
  | path
  | list (hasGetters hasSetters : Bool)
deriving DecidableEq

/-- The skip resolution of `extract_field_config` (bitfield.rs 317-373):
a bare `#[skip]` means `SkipWhich::All`; for a list, an empty list or a list
naming both `getters` and `setters` means `All`, else the one named pair. -/
def skip_which_of_attr : SkipAttr → SkipWhich
  | SkipAttr.path => SkipWhich.all
  | SkipAttr.list g s =>
    if (!g && !s) || (g && s) then SkipWhich.all
    else if g then SkipWhich.getters
    else SkipWhich.setters

/-- Modelled from the spec: `FieldConfig::skip_getters()` for a resolved
skip configuration (field_config.rs is not under `src/`): `all` and
`getters` suppress the getter pair. -/
def skipGettersOf : SkipWhich → Bool
  | SkipWhich.all => true
  | SkipWhich.getters => true
  | SkipWhich.setters => false

/-- Modelled from the spec: `FieldConfig::skip_setters()` for a resolved
skip configuration: `all` and `setters` suppress the setter pair. -/
def skipSettersOf : SkipWhich → Bool
  | SkipWhich.all => true
  | SkipWhich.getters => false
  | SkipWhich.setters => true

/-- Which accessor pairs the macro generates for a field with the given skip
configuration (`expand_getters_and_setters_for_field` returns `None` when
both pairs are skipped, bitfield.rs 982-984; otherwise
`expand_getters_for_field` skips the getter pair iff `skip_getters()`,
bitfield.rs 797-799, and `expand_setters_for_field` skips the setter pair
iff `skip_setters()`, bitfield.rs 867-869).  The first component tells
whether the getter pair is generated, the second the setter pair. -/
def generated_accessors (w : SkipWhich) : Bool × Bool :=
  if skipGettersOf w && skipSettersOf w then (false, false)
  else (!(skipGettersOf w), !(skipSettersOf w))

/-- A field with the given width over an 8-bit raw type, with the identity
codec and no skips (the shape of the primitive `B1..B8` specifiers). -/
def mkField (w : Nat) : Field :=
  ⟨⟨w, 8, some, FromBytesResult.ok⟩, false, false⟩

/-- A field with the given width whose getters and setters are both
skipped. -/
def mkSkippedField (w : Nat) : Field :=
  ⟨⟨w, 8, some, FromBytesResult.ok⟩, true, true⟩

/-- The specifier of a width-4 field over an 8-bit raw type with the
identity codec — the shape of the primitive `B4` specifier. -/
def b4Spec : Specifier :=
  ⟨4, 8, some, FromBytesResult.ok⟩

/-- C1: the claim fails on the code.  For widths [3, 5, 8] where field 1 is
fully skipped, `expand_getters_and_setters_for_field` returns before
`offset.push`, so the accessors of field 2 are generated at bit offset 3
instead of the claimed 8 = 3 + 5 (the sum of all earlier declared widths):
the skipped field does not occupy its width in the running offset, although
`generate_bitfield_size` does count it.  With no skipped fields the offsets
do match the prefix sums 0, 3, 8. -/
theorem c1_offset_drops_skipped_field_width :
    (codeOffset [mkField 3, mkSkippedField 5, mkField 8] 2 = 3 ∧
      specClaimedOffset [mkField 3, mkSkippedField 5, mkField 8] 2 = 8) ∧
    (codeOffset [mkField 3, mkField 5, mkField 8] 0 = 0 ∧
      codeOffset [mkField 3, mkField 5, mkField 8] 1 = 3 ∧
      codeOffset [mkField 3, mkField 5, mkField 8] 2 = 8) := by
  decide

/-- C2: counterexample evaluation at the failing input.  For a
specifier-enabled bitfield with BITS = 4 and Bytes = u8 (baseBits 8), the
input 16 = 2^4 is not representable in 4 bits, yet the generated
`from_bytes` accepts it, because the code compares against `1 << BITS`
instead of `(1 << BITS) - 1`.  Inputs 15 (below 2^4) and 17 (above 2^4)
behave as the claim says; 16 is the divergence. -/
theorem c2_specifier_from_bytes_accepts_two_pow_bits :
    specifier_from_bytes 8 4 16 = FromBytesResult.ok 16 ∧
    2 ^ 4 ≤ 16 ∧ 4 < 8 ∧
    specifier_from_bytes 8 4 15 = FromBytesResult.ok 15 ∧
    specifier_from_bytes 8 4 17 = FromBytesResult.invalidBitPattern 17 := by
  decide

/-- C3: `set_<field>_checked` returns Err(OutOfBounds) exactly when the
field width is strictly below the bit width of the codec raw type and the
encoded raw value exceeds the width maximum 2^w - 1; otherwise (for any raw
value representable in the raw type) it writes the field bits and returns
Ok(()). -/
theorem c3_set_checked_bounds (sp : Specifier) (offset : Nat) (buf : List Nat)
    (v raw : Nat) (hbase : sp.bits ≤ sp.baseBits)
    (henc : sp.intoBytes v = some raw) :
    ((set_checked sp offset buf v).1 = SetResult.outOfBounds ↔
      sp.bits < sp.baseBits ∧ 2 ^ sp.bits - 1 < raw) ∧
    (raw < 2 ^ sp.baseBits → ¬(sp.bits < sp.baseBits ∧ 2 ^ sp.bits - 1 < raw) →
      set_checked sp offset buf v =
        (SetResult.ok, write_specifier buf offset sp.bits raw)) := by
  refine ⟨set_checked_err_iff sp offset buf v raw hbase henc, ?_⟩
  intro hrawlt hnot
  apply set_checked_of_le sp offset buf v raw hbase henc
  by_cases hb : sp.bits < sp.baseBits
  · have hle : ¬(2 ^ sp.bits - 1 < raw) := fun hx => hnot ⟨hb, hx⟩
    omega
  · have he : sp.bits = sp.baseBits := by omega
    rw [he]
    omega

/-- Witness for C3 at a width-4 field (the B4 shape, raw type u8): value 16
is rejected with OutOfBounds, value 15 is encoded and written. -/
theorem c3_set_checked_bounds_witness :
    (b4Spec.bits ≤ b4Spec.baseBits ∧ b4Spec.intoBytes 16 = some 16 ∧
      b4Spec.intoBytes 15 = some 15) ∧
    (set_checked b4Spec 0 [0] 16).1 = SetResult.outOfBounds ∧
    set_checked b4Spec 0 [0] 15 = (SetResult.ok, write_specifier [0] 0 4 15) := by
  refine ⟨⟨by decide, rfl, rfl⟩, ?_, ?_⟩
  · exact (c3_set_checked_bounds b4Spec 0 [0] 16 16 (by decide) rfl).1.mpr (by decide)
  · exact (c3_set_checked_bounds b4Spec 0 [0] 15 15 (by decide) rfl).2
      (by decide) (by decide)

/-- C7: the filled check accepts exactly the multiples of 8 when
filled = true (MustBeByteMultiple) and exactly the non-multiples when
filled = false (MustNotBeByteMultiple); a schema whose widths sum to 13 is
rejected by the former, one whose widths sum to 16 by the latter. -/
theorem c7_filled_check (fs : List Field) :
    (filled_check_passes true (totalBits fs) = true ↔ totalBits fs % 8 = 0) ∧
    (filled_check_passes false (totalBits fs) = true ↔ totalBits fs % 8 ≠ 0) ∧
    totalBits [mkField 8, mkField 5] = 13 ∧
    filled_check_passes true (totalBits [mkField 8, mkField 5]) = false ∧
    totalBits [mkField 8, mkField 8] = 16 ∧
    filled_check_passes false (totalBits [mkField 8, mkField 8]) = false := by
  refine ⟨?_, ?_, by decide, by decide, by decide, by decide⟩ <;>
    simp [filled_check_passes]

/-- C8: the generated byte storage length is ceil(total_bits / 8): the code
formula `((((total - 1) / 8) + 1) * 8) / 8` equals `(total + 7) / 8` for
total ≥ 1, `new()` and `into_bytes` produce exactly that many bytes, and
`byte_length * 8 >= total_bits` holds. -/
theorem c8_byte_length_is_ceil (n : Nat) (h : 1 ≤ n) :
    byteLength n = (n + 7) / 8 ∧
    n ≤ 8 * byteLength n ∧
    (into_bytes (newBitfield n)).length = (n + 7) / 8 := by
  refine ⟨byteLength_eq n h, total_le_8_byteLength n h, ?_⟩
  simp [into_bytes, newBitfield, byteLength_eq n h]

/-- Witness for C8 at total_bits = 13: byte length 2 = (13 + 7) / 8. -/
theorem c8_byte_length_is_ceil_witness :
    1 ≤ 13 ∧ byteLength 13 = (13 + 7) / 8 ∧ 13 ≤ 8 * byteLength 13 ∧
    (into_bytes (newBitfield 13)).length = (13 + 7) / 8 := by
  have h := c8_byte_length_is_ceil 13 (by decide)
  exact ⟨by decide, h.1, h.2.1, h.2.2⟩

/-- C9: `#[skip]` (bare path), `#[skip()]` (empty list) and a list naming
both getters and setters all resolve to All, which suppresses both accessor
pairs entirely; `#[skip(getters)]` alone suppresses only the getter pair and
`#[skip(setters)]` alone only the setter pair. -/
theorem c9_skip_configuration :
    skip_which_of_attr SkipAttr.path = SkipWhich.all ∧
    skip_which_of_attr (SkipAttr.list false false) = SkipWhich.all ∧
    skip_which_of_attr (SkipAttr.list true true) = SkipWhich.all ∧
    generated_accessors SkipWhich.all = (false, false) ∧
    skip_which_of_attr (SkipAttr.list true false) = SkipWhich.getters ∧
    generated_accessors SkipWhich.getters = (false, true) ∧
    skip_which_of_attr (SkipAttr.list false true) = SkipWhich.setters ∧
    generated_accessors SkipWhich.setters = (true, false) := by
  decide

/-- C10: the checked setter is atomic on error: whenever it reports
OutOfBounds — because encoding fails or because the encoded raw value
exceeds the width maximum — the byte buffer is left byte-for-byte unchanged
(both error returns precede the `write_specifier` call), and consequently
`with_<field>_checked` returns Err while the copy it operated on still
equals the original buffer. -/
theorem c10_set_checked_atomic (sp : Specifier) (offset : Nat) (buf : List Nat)
    (v : Nat) (h : (set_checked sp offset buf v).1 = SetResult.outOfBounds) :
    (set_checked sp offset buf v).2 = buf ∧ with_checked sp offset buf v = none := by
  unfold with_checked
  unfold set_checked at h ⊢
  cases henc : sp.intoBytes v with
  | none =>
    exact ⟨rfl, rfl⟩
  | some raw =>
    rw [henc] at h
    dsimp only at h ⊢
    rcases Decidable.em (sp.baseBits = sp.bits ∨
        raw ≤ (2 ^ sp.baseBits - 1) >>> (sp.baseBits - sp.bits)) with hc | hc
    · rw [if_neg (not_not_intro hc)] at h
      simp at h
    · rw [if_pos hc]
      exact ⟨rfl, rfl⟩

/-- Witness for C10: on a width-4 field, setting 16 fails with OutOfBounds
and leaves the 1-byte buffer [0] unchanged; the with-style setter returns
Err. -/
theorem c10_set_checked_atomic_witness :
    (set_checked b4Spec 0 [0] 16).1 = SetResult.outOfBounds ∧
    (set_checked b4Spec 0 [0] 16).2 = [0] ∧
    with_checked b4Spec 0 [0] 16 = none := by
  refine ⟨by decide, ?_, ?_⟩
  · exact (c10_set_checked_atomic b4Spec 0 [0] 16 (by decide)).1
  · exact (c10_set_checked_atomic b4Spec 0 [0] 16 (by decide)).2

theorem two_pow_le_of_testBit (n k : Nat) (h : Nat.testBit n k = true) :
    2 ^ k ≤ n := by
  by_contra hlt
  push_neg at hlt
  rw [Nat.testBit_eq_false_of_lt hlt] at h
  exact Bool.false_ne_true h

/-- A byte value reaches `2 ^ s` exactly when one of its bits in positions
`[s, 8)` is set. -/
theorem ge_two_pow_iff_exists_high_bit (b s : Nat) (hb : b < 2 ^ 8) (hs : s ≤ 8) :
    2 ^ s ≤ b ↔ ∃ k, s ≤ k ∧ k < 8 ∧ Nat.testBit b k = true := by
  constructor
  · intro hge
    have hq0 : b >>> s ≠ 0 := by
      rw [Nat.shiftRight_eq_div_pow]
      have h1 : 1 ≤ b / 2 ^ s := (Nat.one_le_div_iff (two_pow_pos s)).mpr hge
      omega
    obtain ⟨i, hi, hmax⟩ := Nat.exists_most_significant_bit hq0
    have hbit : Nat.testBit b (s + i) = true := by
      rw [← Nat.testBit_shiftRight]
      exact hi
    have hqlt : b >>> s < 2 ^ (8 - s) := by
      rw [Nat.shiftRight_eq_div_pow]
      apply Nat.div_lt_of_lt_mul
      have hsplit : 2 ^ s * 2 ^ (8 - s) = 2 ^ 8 := by
        rw [← pow_add]
        congr 1
        omega
      omega
    have hile : i < 8 - s := by
      by_contra hcon
      push_neg at hcon
      have h1 : 2 ^ i ≤ b >>> s := two_pow_le_of_testBit _ _ hi
      have h2 : 2 ^ (8 - s) ≤ 2 ^ i := Nat.pow_le_pow_right (by norm_num) hcon
      omega
    exact ⟨s + i, by omega, by omega, hbit⟩
  · rintro ⟨k, hsk, _, hbit⟩
    calc 2 ^ s ≤ 2 ^ k := Nat.pow_le_pow_right (by norm_num) hsk
      _ ≤ b := two_pow_le_of_testBit b k hbit

theorem getD_lt_of_forall_lt (bs : List Nat) (k : Nat) (h : ∀ b ∈ bs, b < 256)
    (hk : k < bs.length) : bs.getD k 0 < 256 := by
  rw [List.getD_eq_getElem?_getD, List.getElem?_eq_getElem hk]
  exact h _ (List.getElem_mem hk)

/-- C4: for a non-filled layout (total_bits not a multiple of 8), the
generated `from_bytes` returns Err(OutOfBounds) exactly when some bit of
the highest input byte at a position at or above the significant-bit
boundary `8 - (byte_length * 8 - total_bits)` is set, and otherwise
returns Ok of a value whose stored bytes equal the input unchanged. -/
theorem c4_from_bytes_non_filled_boundary (total : Nat) (bytes : List Nat)
    (htotal : 1 ≤ total) (hnf : total % 8 ≠ 0)
    (hlen : bytes.length = byteLength total)
    (hbytes : ∀ b ∈ bytes, b < 256) :
    (from_bytes_non_filled total bytes = none ↔
      ∃ k, 8 - (byteLength total * 8 - total) ≤ k ∧ k < 8 ∧
        Nat.testBit (bytes.getD (byteLength total - 1) 0) k = true) ∧
    (from_bytes_non_filled total bytes ≠ none →
      from_bytes_non_filled total bytes = some bytes) := by
  have hnext : nextDivisibleBy8 total = 8 * byteLength total := nextDivisibleBy8_eq total
  have hlen1 : 1 ≤ byteLength total := by
    unfold byteLength nextDivisibleBy8
    omega
  have hhb : bytes.getD (byteLength total - 1) 0 < 2 ^ 8 :=
    getD_lt_of_forall_lt bytes _ hbytes (by omega)
  have hs8 : 8 - (nextDivisibleBy8 total - total) ≤ 8 := by omega
  have hseq : 8 - (byteLength total * 8 - total) = 8 - (nextDivisibleBy8 total - total) := by
    omega
  constructor
  · rw [hseq]
    unfold from_bytes_non_filled
    rcases Decidable.em (2 ^ (8 - (nextDivisibleBy8 total - total)) ≤
        bytes.getD (byteLength total - 1) 0) with hc | hc
    · rw [if_pos hc]
      constructor
      · intro _
        exact (ge_two_pow_iff_exists_high_bit _ _ hhb hs8).mp hc
      · intro _
        rfl
    · rw [if_neg hc]
      constructor
      · intro hcontra
        exact absurd hcontra (by simp)
      · intro hex
        exact absurd ((ge_two_pow_iff_exists_high_bit _ _ hhb hs8).mpr hex) hc
  · intro hne
    unfold from_bytes_non_filled at hne ⊢
    split_ifs at hne ⊢ with hc
    · exact absurd rfl hne
    · rfl

/-- Witness for C4: the 1-byte non-filled layout with 5 significant bits
(total_bits = 5) rejects the input [32] (bit 5 set) and accepts [31]
(bits [5,8) clear), returning its bytes unchanged. -/
theorem c4_from_bytes_non_filled_boundary_witness :
    (1 ≤ 5 ∧ 5 % 8 ≠ 0 ∧ ([32] : List Nat).length = byteLength 5) ∧
    from_bytes_non_filled 5 [32] = none ∧
    from_bytes_non_filled 5 [31] = some [31] := by
  refine ⟨⟨by decide, by decide, by decide⟩, ?_, ?_⟩
  · exact (c4_from_bytes_non_filled_boundary 5 [32] (by decide) (by decide)
      (by decide) (by decide)).1.mpr ⟨5, by decide, by decide, by decide⟩
  · exact (c4_from_bytes_non_filled_boundary 5 [31] (by decide) (by decide)
      (by decide) (by decide)).2 (by decide)

/-- C6: with primitive_repr = N bits and total_bits = N
(N in {8, 16, 32, 64, 128}), the generated conversions are little-endian
byte reinterpretations that are mutually inverse: converting a primitive
value into the bitfield (storing to_le_bytes) and back (from_le_bytes)
yields the value again, and the stored array has the layout byte length. -/
theorem c6_repr_round_trip (reprBits x : Nat)
    (hrepr : reprBits = 8 ∨ reprBits = 16 ∨ reprBits = 32 ∨ reprBits = 64 ∨
      reprBits = 128)
    (hx : x < 2 ^ reprBits) :
    repr_into_primitive (repr_from_primitive reprBits x) = x ∧
    (repr_from_primitive reprBits x).length = byteLength reprBits := by
  have hdiv : reprBits % 8 = 0 ∧ 8 ≤ reprBits := by
    rcases hrepr with h | h | h | h | h <;> omega
  have h8 : 8 * (reprBits / 8) = reprBits := by omega
  constructor
  · unfold repr_into_primitive repr_from_primitive
    apply bytesToNat_natToBytes
    rw [pow_256_eq_two_pow, h8]
    exact hx
  · unfold repr_from_primitive
    rw [natToBytes_length]
    unfold byteLength nextDivisibleBy8
    omega

/-- Witness for C6 at a filled 16-bit layout: the primitive value 43981
(0xABCD) round-trips through the byte array. -/
theorem c6_repr_round_trip_witness :
    ((16 : Nat) = 8 ∨ (16 : Nat) = 16 ∨ (16 : Nat) = 32 ∨ (16 : Nat) = 64 ∨
      (16 : Nat) = 128) ∧
    (43981 : Nat) < 2 ^ 16 ∧
    repr_into_primitive (repr_from_primitive 16 43981) = 43981 ∧
    (repr_from_primitive 16 43981).length = byteLength 16 := by
  have h := c6_repr_round_trip 16 43981 (by decide) (by decide)
  exact ⟨by decide, by decide, h.1, h.2⟩

/-- C5: for every schema, every field `i` with accessors and every value
whose encoded raw pattern fits the field width, the checked setter returns
Ok, the checked getter of field `i` then returns the value back, and the
checked getter of every other accessible field `j` returns the same result
as before the set.  The codec hypotheses say that encoding `v` yields `raw`,
that `raw` is representable in the field width, and that decoding `raw`
yields `v` again. -/
theorem c5_set_get_round_trip (fs : List Field) (i j : Nat) (buf : List Nat)
    (v raw : Nat)
    (hi : i < fs.length) (hj : j < fs.length) (hij : i ≠ j)
    (htotal : 1 ≤ totalBits fs)
    (hlen : buf.length = byteLength (totalBits fs))
    (hbytes : ∀ b ∈ buf, b < 256)
    (hgi : (fieldAt fs i).skipGetters = false)
    (hsi : (fieldAt fs i).skipSetters = false)
    (hgj : (fieldAt fs j).skipGetters = false)
    (hbase : (fieldAt fs i).spec.bits ≤ (fieldAt fs i).spec.baseBits)
    (henc : (fieldAt fs i).spec.intoBytes v = some raw)
    (hraw : raw < 2 ^ (fieldAt fs i).spec.bits)
    (hdec : (fieldAt fs i).spec.fromBytes raw = FromBytesResult.ok v) :
    (set_checked (fieldAt fs i).spec (codeOffset fs i) buf v).1 = SetResult.ok ∧
    get_checked (fieldAt fs i).spec (codeOffset fs i)
        (set_checked (fieldAt fs i).spec (codeOffset fs i) buf v).2 =
      FromBytesResult.ok v ∧
    get_checked (fieldAt fs j).spec (codeOffset fs j)
        (set_checked (fieldAt fs i).spec (codeOffset fs i) buf v).2 =
      get_checked (fieldAt fs j).spec (codeOffset fs j) buf := by
  have hraw1 : raw ≤ 2 ^ (fieldAt fs i).spec.bits - 1 := by
    have hpos := two_pow_pos (fieldAt fs i).spec.bits
    omega
  have hset := set_checked_of_le (fieldAt fs i).spec (codeOffset fs i) buf v raw
    hbase henc hraw1
  have hfit : codeOffset fs i + (fieldAt fs i).spec.bits ≤ 8 * buf.length := by
    have h1 := codeOffset_add_bits_le_total fs i hi
    have h2 := total_le_8_byteLength (totalBits fs) htotal
    omega
  refine ⟨by rw [hset], ?_, ?_⟩
  · rw [hset]
    unfold get_checked
    rw [read_write_specifier_same buf _ _ raw hbytes hfit]
    rw [Nat.mod_eq_of_lt hraw]
    exact hdec
  · rw [hset]
    unfold get_checked
    have hskipi : skipBoth (fieldAt fs i) = false := by
      unfold skipBoth
      rw [hgi]
      rfl
    have hskipj : skipBoth (fieldAt fs j) = false := by
      unfold skipBoth
      rw [hgj]
      rfl
    have hdisj : codeOffset fs j + (fieldAt fs j).spec.bits ≤ codeOffset fs i ∨
        codeOffset fs i + (fieldAt fs i).spec.bits ≤ codeOffset fs j := by
      rcases Nat.lt_or_ge i j with hlt | hge
      · exact Or.inr (codeOffset_add_bits_le fs i j hlt hi hskipi)
      · have hlt2 : j < i := by omega
        exact Or.inl (codeOffset_add_bits_le fs j i hlt2 hj hskipj)
    rw [read_write_specifier_frame buf _ _ raw _ _ hbytes hfit hdisj]

/-- The widths [3, 5, 8] schema with no skipped fields, used as the concrete
round-trip witness schema. -/
def c5Fields : List Field :=
  [mkField 3, mkField 5, mkField 8]

/-- Witness for C5: on the widths [3, 5, 8] schema with a zeroed 2-byte
buffer, setting field 1 to 5 succeeds, reading field 1 back yields 5, and
the checked getter of field 2 is unchanged. -/
theorem c5_set_get_round_trip_witness :
    (1 ≤ totalBits c5Fields ∧
      ([0, 0] : List Nat).length = byteLength (totalBits c5Fields) ∧
      (5 : Nat) < 2 ^ (fieldAt c5Fields 1).spec.bits) ∧
    (set_checked (fieldAt c5Fields 1).spec (codeOffset c5Fields 1) [0, 0] 5).1 =
      SetResult.ok ∧
    get_checked (fieldAt c5Fields 1).spec (codeOffset c5Fields 1)
        (set_checked (fieldAt c5Fields 1).spec (codeOffset c5Fields 1) [0, 0] 5).2 =
      FromBytesResult.ok 5 ∧
    get_checked (fieldAt c5Fields 2).spec (codeOffset c5Fields 2)
        (set_checked (fieldAt c5Fields 1).spec (codeOffset c5Fields 1) [0, 0] 5).2 =
      get_checked (fieldAt c5Fields 2).spec (codeOffset c5Fields 2) [0, 0] := by
  refine ⟨⟨by decide, by decide, by decide⟩, ?_⟩
  exact c5_set_get_round_trip c5Fields 1 2 [0, 0] 5 5
    (by decide) (by decide) (by decide) (by decide) (by decide) (by decide)
    (by decide) (by decide) (by decide) (by decide) rfl (by decide) rfl

end ModularBitfield
